import Mathlib

/-
  Verification of the pytruth assertion library core, as a shallow embedding.

  The source of authority is truth/truth.py. Python values are embedded as
  follows: element types become a type parameter with decidable equality;
  Python hashability, which routes elements between the two internal stores
  of a DuplicateCounter, becomes an explicit predicate on elements; raising
  TruthAssertionError becomes returning an error value of a structured error
  type whose constructors record the failure message content; machine-level
  concerns do not arise.
-/

set_option linter.unusedSectionVars false

namespace PyTruth

section Counter

variable {α : Type} [DecidableEq α]

/- Ordered association lists from keys to counts. Both internal stores of a
   DuplicateCounter are embedded this way: the OrderedDict of hashable items
   maps keys to counts in insertion order, and the two parallel lists
   unhashable_items and unhashable_counts are fused into a single list of
   pairs, which carries the same information. Lookup finds the first entry
   with an equal key, as both dict lookup and list.index do. -/

/-- Membership test on an ordered association list, as used by the source
for key in dict and for item in list checks. -/
def alContains (l : List (α × Nat)) (x : α) : Bool :=
  l.any (fun p => decide (p.1 = x))

/-- Total count of a key in an ordered association list, summed over every
entry carrying that key. Specification device for the proofs. -/
def alCount (l : List (α × Nat)) (x : α) : Nat :=
  (l.map (fun p => if p.1 = x then p.2 else 0)).sum

/-- Embedding of the increment branch of DuplicateCounter.Increment on one
store: bump the first entry with the given key, or append a fresh entry
with count 1. -/
def alIncrement : List (α × Nat) → α → List (α × Nat)
  | [], x => [(x, 1)]
  | p :: ps, x =>
    if p.1 = x then (p.1, p.2 + 1) :: ps else p :: alIncrement ps x

/-- Embedding of the decrement branch of DuplicateCounter.Decrement on one
store: decrement the first entry with the given key when its count exceeds
one, expunge it when the count is one, and do nothing when the key is
absent. -/
def alDecrement : List (α × Nat) → α → List (α × Nat)
  | [], _ => []
  | p :: ps, x =>
    if p.1 = x then (if p.2 > 1 then (p.1, p.2 - 1) :: ps else ps)
    else p :: alDecrement ps x

/-- Embedding of truth._DuplicateCounter: an insertion-ordered multiset with
separate stores for hashable and unhashable elements. Field d embeds the
OrderedDict self._d; field unhashable fuses the parallel lists
self._unhashable_items and self._unhashable_counts into one entry list. -/
structure DuplicateCounter (α : Type) where
  d : List (α × Nat)
  unhashable : List (α × Nat)
deriving DecidableEq

/-- A freshly constructed DuplicateCounter: both stores empty. -/
def DuplicateCounter.empty : DuplicateCounter α := ⟨[], []⟩

variable (hashable : α → Bool)

/-- Embedding of DuplicateCounter.__contains__: route by hashability, then
test membership in the corresponding store. -/
def DuplicateCounter.contains (c : DuplicateCounter α) (x : α) : Bool :=
  if hashable x then alContains c.d x else alContains c.unhashable x

/-- Embedding of DuplicateCounter.__len__: number of distinct tracked items,
which is the entry count of the two stores combined. -/
def DuplicateCounter.size (c : DuplicateCounter α) : Nat :=
  c.d.length + c.unhashable.length

/-- Python truthiness of a DuplicateCounter, which is defined through its
__len__; the source tests it as if missing. -/
def DuplicateCounter.isNonempty (c : DuplicateCounter α) : Bool :=
  decide (0 < c.size)

/-- Rendering of one entry for DuplicateCounter.__str__: the item alone when
its count is 1, else the item with a copies annotation. -/
def renderEntry (rp : α → String) (p : α × Nat) : String :=
  if p.2 = 1 then rp p.1
  else rp p.1 ++ " [" ++ toString p.2 ++ " copies]"

/-- Embedding of DuplicateCounter.__str__: render the hashable entries in
order, then the unhashable entries, comma separated inside brackets. The
Python repr of an element is abstracted as a rendering function. -/
def DuplicateCounter.render (rp : α → String) (c : DuplicateCounter α) : String :=
  "[" ++ String.intercalate ", " ((c.d ++ c.unhashable).map (renderEntry rp)) ++ "]"

/-- Embedding of DuplicateCounter.Increment: route by hashability and bump
the corresponding store. -/
def DuplicateCounter.Increment (c : DuplicateCounter α) (x : α) : DuplicateCounter α :=
  if hashable x then ⟨alIncrement c.d x, c.unhashable⟩
  else ⟨c.d, alIncrement c.unhashable x⟩

/-- Embedding of DuplicateCounter.Decrement: route by hashability and lower
the corresponding store, expunging entries that reach zero. -/
def DuplicateCounter.Decrement (c : DuplicateCounter α) (x : α) : DuplicateCounter α :=
  if hashable x then ⟨alDecrement c.d x, c.unhashable⟩
  else ⟨c.d, alDecrement c.unhashable x⟩

/-- Total multiplicity of an element across both stores. Specification
device for the proofs. -/
def DuplicateCounter.count (c : DuplicateCounter α) (x : α) : Nat :=
  alCount c.d x + alCount c.unhashable x

/-- Well-formedness of the counter states reachable through the public
operations: every stored count is positive, and each entry sits in the
store matching its hashability. -/
def DuplicateCounter.WF (c : DuplicateCounter α) : Prop :=
  (∀ p ∈ c.d, 1 ≤ p.2) ∧ (∀ p ∈ c.unhashable, 1 ≤ p.2) ∧
    (∀ p ∈ c.d, hashable p.1 = true) ∧ (∀ p ∈ c.unhashable, hashable p.1 = false)

end Counter

section Containment

variable {α : Type} [DecidableEq α] (hashable : α → Bool)

/-- Embedding of the _Ordered adverb returned by the contains-family
propositions: _InOrder, or _NotInOrder carrying the original actual
sequence, the verb of the check, and the expected sequence. -/
inductive Ordered (α : Type) where
  | inOrder
  | notInOrder (actual : List α) (check : String) (expected : List α)
deriving DecidableEq

/-- Embedding of the TruthAssertionError raised by the containment engine.
Each constructor records which failing call site raised and the values its
message interpolates. -/
inductive ContainsError (α : Type) where
  | isEmpty
  | exactlyMissing (expected : List α) (missing : DuplicateCounter α)
  | exactlyExtra (expected : List α) (extra : DuplicateCounter α)
  | exactlyMissingAndExtra (expected : List α)
      (missing extra : DuplicateCounter α)
  | missingAll (verb : String) (expected : List α) (missing : DuplicateCounter α)
  | notInOrderFailure (actual : List α) (check : String) (expected : List α)
  | anyFailure (verb : String) (expected : List α)
deriving DecidableEq

/-- Embedding of the InOrder method of the _Ordered adverb: _InOrder.InOrder
passes, _NotInOrder.InOrder fails comparing values with its stored check
verb and expected sequence. -/
def Ordered.InOrder : Ordered α → Except (ContainsError α) Unit
  | .inOrder => .ok ()
  | .notInOrder actual check expected =>
      .error (.notInOrderFailure actual check expected)

/-- A list drained into a DuplicateCounter by repeated Increment, in order,
as the source does with for m in expected_iter missing.Increment m. -/
def dcOfList (l : List α) : DuplicateCounter α :=
  l.foldl (DuplicateCounter.Increment hashable) DuplicateCounter.empty

/-- Embedding of the reconciliation loop of _ContainsExactlyElementsIn: each
remaining actual element is decremented out of missing when present there,
and otherwise accumulated into extra. -/
def reconcile : List α → DuplicateCounter α → DuplicateCounter α →
    DuplicateCounter α × DuplicateCounter α
  | [], missing, extra => (missing, extra)
  | e :: es, missing, extra =>
    if DuplicateCounter.contains hashable missing e then
      reconcile es (DuplicateCounter.Decrement hashable missing e) extra
    else
      reconcile es missing (DuplicateCounter.Increment hashable extra e)

/-- Embedding of the pairwise walk of _ContainsExactlyElementsIn, including
the reconciliation taken at the first differing pair. The first two
arguments keep the original actual and expected sequences for the failure
payloads; the last two are the remaining iterators. When the actual side
exhausts first, every remaining expected element is missing; when the
expected side exhausts first, the remaining actual elements are extra. -/
def containsExactlyWalk (origActual origExpected : List α) :
    List α → List α → Except (ContainsError α) (Ordered α)
  | [], [] => .ok .inOrder
  | [], m :: ms =>
    .error (.exactlyMissing origExpected (dcOfList hashable (m :: ms)))
  | a :: as, [] =>
    .error (.exactlyExtra origExpected (dcOfList hashable (a :: as)))
  | a :: as, e :: es =>
    if a = e then containsExactlyWalk origActual origExpected as es
    else
      let r := reconcile hashable (a :: as) (dcOfList hashable (e :: es))
        DuplicateCounter.empty
      if r.1.isNonempty then
        if r.2.isNonempty then
          .error (.exactlyMissingAndExtra origExpected r.1 r.2)
        else .error (.exactlyMissing origExpected r.1)
      else if r.2.isNonempty then .error (.exactlyExtra origExpected r.2)
      else .ok (.notInOrder origActual
        "contains exactly these elements in order" origExpected)

/-- Embedding of _IterableSubject._ContainsExactlyElementsIn. An empty
expected collection demands an empty actual value, failing with the
is-empty proposition otherwise; a nonempty expected collection runs the
pairwise walk. -/
def ContainsExactlyElementsIn (actual expected : List α) :
    Except (ContainsError α) (Ordered α) :=
  if expected.isEmpty then
    if actual.isEmpty then .ok .inOrder else .error .isEmpty
  else containsExactlyWalk hashable actual expected actual expected

/-- Splitting of a list at the first occurrence of an element, embedding
list.index followed by the pop calls in _ContainsAll: the result is the
skipped strict prefix and the suffix after the found occurrence, or none
when the element is absent (the ValueError branch). -/
def splitAtFirst (x : α) : List α → Option (List α × List α)
  | [] => none
  | a :: as =>
    if a = x then some ([], as)
    else (splitAtFirst x as).map (fun p => (a :: p.1, p.2))

/-- Guarded insertion into the out-of-order pool of _ContainsAll. The pool
is a Python set that degrades to a list when an unhashable element
arrives; since the source only applies membership tests, guarded
insertion and removal to it, it is embedded as a duplicate-free list for
both phases. -/
def poolAdd (pool : List α) (x : α) : List α :=
  if x ∈ pool then pool else pool ++ [x]

/-- Removal of the first occurrence of an element from the pool, embedding
set.remove and list.remove. -/
def removeFirst : List α → α → List α
  | [], _ => []
  | a :: as, x => if a = x then as else a :: removeFirst as x

/-- Embedding of the main loop of _IterableSubject._ContainsAll. For each
expected element in turn: if it occurs in the remaining working copy of
actual, the skipped prefix is drained into the out-of-order pool and the
occurrence is consumed; otherwise, if it is in the pool it is pulled out
and the result can no longer be in order; otherwise it is counted
missing. Returns the final missing counter and the ordered flag. -/
def containsAllLoop : List α → List α → List α → DuplicateCounter α → Bool →
    DuplicateCounter α × Bool
  | [], _, _, missing, ordered => (missing, ordered)
  | i :: rest, actualList, pool, missing, ordered =>
    match splitAtFirst i actualList with
    | some (pre, post) =>
      containsAllLoop rest post (pre.foldl poolAdd pool) missing ordered
    | none =>
      if i ∈ pool then
        containsAllLoop rest actualList (removeFirst pool i) missing false
      else
        containsAllLoop rest actualList pool
          (DuplicateCounter.Increment hashable missing i) ordered

/-- Embedding of _IterableSubject._ContainsAll: run the loop over the
expected elements starting from the full actual list, an empty pool and
an empty missing counter; fail with the full missing counter when any
expected element went missing, and otherwise return the ordered adverb. -/
def ContainsAll (verb : String) (actual expected : List α) :
    Except (ContainsError α) (Ordered α) :=
  let r := containsAllLoop hashable expected actual [] DuplicateCounter.empty true
  if r.1.isNonempty then .error (.missingAll verb expected r.1)
  else if r.2 then .ok .inOrder
  else .ok (.notInOrder actual "contains all elements in order" expected)

/-- Embedding of _IterableSubject.ContainsAllIn. -/
def ContainsAllIn (actual expected : List α) :
    Except (ContainsError α) (Ordered α) :=
  ContainsAll hashable "contains all elements in" actual expected

/-- Embedding of _IterableSubject.ContainsAllOf, whose varargs arrive as a
tuple of the expected elements. -/
def ContainsAllOf (actual expected : List α) :
    Except (ContainsError α) (Ordered α) :=
  ContainsAll hashable "contains all of" actual expected

/-- Embedding of _IterableSubject._ContainsAny: succeed as soon as any
expected element is a member of the actual collection, and fail comparing
values when none is. The single-element fast path and the set conversion
of the general path perform the same membership test, so both are
embedded as one scan. -/
def ContainsAny (verb : String) (actual expected : List α) :
    Except (ContainsError α) Unit :=
  match expected with
  | [] => .error (.anyFailure verb [])
  | i :: rest =>
    if (i :: rest).any (fun x => decide (x ∈ actual)) then .ok ()
    else .error (.anyFailure verb (i :: rest))

/-- Embedding of _IterableSubject.ContainsAnyIn. -/
def ContainsAnyIn (actual expected : List α) : Except (ContainsError α) Unit :=
  ContainsAny "contains any element in" actual expected

/-- Embedding of _IterableSubject.ContainsAnyOf, whose varargs arrive as a
tuple of the expected elements. -/
def ContainsAnyOf (actual expected : List α) : Except (ContainsError α) Unit :=
  ContainsAny "contains any of" actual expected

end Containment

section ResultChain

variable {α : Type}

/-- Chaining of the InOrder check onto the result of a containment
proposition, as in ContainsExactlyElementsIn(B).InOrder(): a raised failure
propagates, a returned adverb has its InOrder method invoked. -/
def resultInOrder (r : Except (ContainsError α) (Ordered α)) :
    Except (ContainsError α) Unit :=
  match r with
  | .error e => .error e
  | .ok o => o.InOrder

end ResultChain

section Dispatch

/-- The Python classes the dispatch logic inspects, embedded as a closed
universe: the keys of _TYPE_CONSTRUCTORS, the special-cased type itself,
representative exception classes for the contexts, and the plain bases
object and int. -/
inductive PyType where
  | object
  | type
  | int
  | bool
  | baseException
  | exception
  | valueError
  | typeError
  | str
  | noneType
  | mapping
  | nonCallableMock
deriving DecidableEq, Fintype

/-- The strict superclasses of each embedded class, following the Python
method resolution order of these builtins: bool derives from int,
ValueError and TypeError from Exception from BaseException, and everything
from object. The abstract base chain above Mapping and the mock base class
contain no other member of this universe and collapse to object. -/
def PyType.strictSuperclasses : PyType → List PyType
  | .object => []
  | .type => [.object]
  | .int => [.object]
  | .bool => [.int, .object]
  | .baseException => [.object]
  | .exception => [.baseException, .object]
  | .valueError => [.exception, .baseException, .object]
  | .typeError => [.exception, .baseException, .object]
  | .str => [.object]
  | .noneType => [.object]
  | .mapping => [.object]
  | .nonCallableMock => [.object]

/-- Embedding of the Python issubclass test on the closed universe: a class
is a subclass of itself and of each of its strict superclasses. -/
def issubclass (a b : PyType) : Bool :=
  decide (a = b) || decide (b ∈ a.strictSuperclasses)

/-- The subject constructors AssertThat can select, one per subject class of
the source. -/
inductive SubjectKind where
  | exceptionClassSubject
  | classSubject
  | exceptionSubject
  | booleanSubject
  | dictionarySubject
  | mockSubject
  | noneSubject
  | stringSubject
  | numericSubject
  | comparableIterableSubject
  | comparableSubject
  | iterableSubject
  | defaultSubject
deriving DecidableEq

/-- Embedding of _TYPE_CONSTRUCTORS under Python 3, in insertion order: the
dictionary literal maps BaseException, bool, Mapping, NonCallableMock and
NoneType, and the loops after it add str for six.string_types while adding
nothing for six.class_types, whose only Python 3 member is type itself,
which the loop skips. -/
def TYPE_CONSTRUCTORS : List (PyType × SubjectKind) :=
  [(.baseException, .exceptionSubject),
   (.bool, .booleanSubject),
   (.mapping, .dictionarySubject),
   (.nonCallableMock, .mockSubject),
   (.noneType, .noneSubject),
   (.str, .stringSubject)]

/-- A Python value as the dispatch logic observes it: its declared class,
whether, when it is itself a class, it describes a throwable, and the
outcomes of the structural probes the fallback classifiers perform on the
instance (mock attributes, Number registration, comparison attributes, the
Iterable hook). -/
structure PyObj where
  cls : PyType
  isExceptionClass : Bool
  hasMockAttrs : Bool
  isNumber : Bool
  hasComparableAttrs : Bool
  isIterableInstance : Bool
deriving DecidableEq

/-- Embedding of _IsMock: an instance of the mock base class, or an object
carrying all of the required mock attributes. -/
def IsMock (t : PyObj) : Bool :=
  issubclass t.cls .nonCallableMock || t.hasMockAttrs

/-- Embedding of _IsNumeric: membership in the Number abstract class, a
registration-based probe carried on the object. -/
def IsNumeric (t : PyObj) : Bool :=
  t.isNumber

/-- Embedding of _IsComparable: numeric values are comparable, and so is
anything carrying all four rich comparison attributes. -/
def IsComparable (t : PyObj) : Bool :=
  IsNumeric t || t.hasComparableAttrs

/-- Embedding of _IsIterable: the Iterable abstract class membership probe
carried on the object. -/
def IsIterable (t : PyObj) : Bool :=
  t.isIterableInstance

/-- The scan of _TYPE_CONSTRUCTORS inside AssertThat: the first entry whose
key is a superclass of the declared class of the target decides the
subject class. -/
def tableLookup (cls : PyType) : Option SubjectKind :=
  (TYPE_CONSTRUCTORS.find? (fun e => issubclass cls e.1)).map (fun e => e.2)

/-- Embedding of the AssertThat gateway dispatch: classes are special-cased
first, splitting throwables from other classes; then the explicit table is
scanned; then the structural classifiers run in their fixed priority
order; the default subject is the final fallback. The embedding is a total
function, as the source never raises on any branch. -/
def AssertThat (t : PyObj) : SubjectKind :=
  if t.cls = .type then
    if t.isExceptionClass then .exceptionClassSubject else .classSubject
  else
    match tableLookup t.cls with
    | some k => k
    | none =>
      if IsMock t then .mockSubject
      else if IsNumeric t then .numericSubject
      else if IsComparable t && IsIterable t then .comparableIterableSubject
      else if IsComparable t then .comparableSubject
      else if IsIterable t then .iterableSubject
      else .defaultSubject

end Dispatch

section Lifecycle

/-- A subject as the lifecycle tracker sees it: an identity and the captured
creation site recorded by _EmptySubject.__init__ through inspect.stack. -/
structure SubjectRecord where
  id : Nat
  site : String
deriving DecidableEq

/-- The process-wide set _EmptySubject._unresolved_subjects, embedded as a
duplicate-free list of subject records. -/
abbrev Registry := List SubjectRecord

/-- Embedding of the registration in _EmptySubject.__init__: the fresh
subject joins the unresolved set. -/
def registerSubject (reg : Registry) (r : SubjectRecord) : Registry :=
  if r ∈ reg then reg else r :: reg

/-- Embedding of _EmptySubject._Resolve: the subject leaves the unresolved
set when present there. -/
def Resolve (reg : Registry) (r : SubjectRecord) : Registry :=
  reg.filter (fun q => decide (q ≠ r))

/-- Result of the checkpoint _EmptySubject._CheckUnresolved: either a normal
return, or an UnresolvedAssertionError listing every offender, each line
of which names the subject and its creation site. -/
inductive CheckResult where
  | passed
  | unresolvedAssertionError (offenders : List SubjectRecord)
deriving DecidableEq

/-- Embedding of _EmptySubject._CheckUnresolved: with a nonempty unresolved
set, raise listing all of its members; with an empty one, return. The
source sorts the offender listing; for the single-offender states the
claims exercise the order is immaterial. -/
def CheckUnresolved (reg : Registry) : CheckResult :=
  match reg with
  | [] => .passed
  | _ => .unresolvedAssertionError reg

/-- Embedding of the resolving accessor property _EmptySubject._actual:
resolve the subject, then hand back the wrapped value. -/
def subjectActual {V : Type} (reg : Registry) (r : SubjectRecord) (value : V) :
    V × Registry :=
  (value, Resolve reg r)

/-- Embedding of a representative proposition, IsEqualTo on the default
subject: read the actual value through the resolving accessor and compare
it with the other value, raising on a mismatch. Every proposition touches
the resolving accessor first in the same way. -/
def IsEqualTo {V : Type} [DecidableEq V] (reg : Registry) (r : SubjectRecord)
    (value other : V) : Registry × Except String Unit :=
  let a := subjectActual reg r value
  (a.2, if a.1 = other then .ok () else .error "is equal to")

end Lifecycle

section ExceptionContext

/-- An exception instance as the contexts observe it: its class, its args
tuple, and whether it carries a message attribute, which Python 3
exceptions lack unless one was set explicitly. The args are embedded as
strings, which Python compares by equality exactly as the engine does. -/
structure ExcInst where
  ty : PyType
  args : List String
  hasMessageAttr : Bool
deriving DecidableEq

/-- Embedding of _ExceptionSubject._GetActualMessage on Python 3: the first
argument of the exception, or the empty string with no args. -/
def GetActualMessage (e : ExcInst) : String :=
  e.args.headD ""

/-- The TruthAssertionError raised by the exception contexts and the
validations they delegate to. -/
inductive ExcCheckError where
  | raisedButCaught (caught : ExcInst)
  | raisedButWasNot
  | messageNotEqual (actualMessage expected : String)
  | argsFailure (e : ContainsError String)
  | noMatch (pattern : String)
  | notContained (needle : String)
deriving DecidableEq

/-- Embedding of _ExceptionSubject.HasMessage: the message of the caught
exception must equal the expected message. -/
def HasMessage (exc : ExcInst) (expected : String) : Except ExcCheckError Unit :=
  if GetActualMessage exc = expected then .ok ()
  else .error (.messageNotEqual (GetActualMessage exc) expected)

/-- Embedding of the args validation in the instance-form exit handler,
AssertThat(exc).HasArgsThat().ContainsExactlyElementsIn(args).InOrder(),
reusing the containment engine; strings are hashable. -/
def argsExactlyInOrder (excArgs templateArgs : List String) :
    Except ExcCheckError Unit :=
  match ContainsExactlyElementsIn (fun _ => true) excArgs templateArgs with
  | .error e => .error (.argsFailure e)
  | .ok o =>
    match Ordered.InOrder o with
    | .error e => .error (.argsFailure e)
    | .ok _ => .ok ()

/-- Embedding of the exit handler of _ExceptionSubject.IsRaised: with a
raised exception of the expected class or a subclass, validate the message
when the template carries a message attribute and then the args; with an
unrelated raised exception, fail naming what was caught; with no raised
exception, fail stating nothing was raised. Each path either raises a
TruthAssertionError or returns True to suppress. -/
def IsRaisedExit (template : ExcInst) (raised : Option ExcInst) :
    Except ExcCheckError Bool :=
  match raised with
  | some exc =>
    if issubclass exc.ty template.ty then
      match (if template.hasMessageAttr
             then HasMessage exc (GetActualMessage template)
             else Except.ok ()) with
      | .error e => .error e
      | .ok _ =>
        match argsExactlyInOrder exc.args template.args with
        | .error e => .error e
        | .ok _ => .ok true
    else .error (.raisedButCaught exc)
  | none => .error .raisedButWasNot

/-- Substring containment on strings, embedding the Python in operator that
_IterableSubject.Contains applies to a string subject. -/
def strContains (hay needle : String) : Bool :=
  decide (List.IsInfix needle.toList hay.toList)

/-- Embedding of the exit handler of _ExceptionClassSubject.IsRaised with
its optional matching and containing criteria. The Python re.search
primitive is abstracted as a function argument. -/
def IsRaisedClassExit (reSearch : String → String → Bool) (expectedTy : PyType)
    (matching containing : Option String) (raised : Option ExcInst) :
    Except ExcCheckError Bool :=
  match raised with
  | some exc =>
    if issubclass exc.ty expectedTy then
      match (match matching with
             | some p =>
               if reSearch p (GetActualMessage exc) then Except.ok ()
               else Except.error (ExcCheckError.noMatch p)
             | none => Except.ok ()) with
      | .error e => .error e
      | .ok _ =>
        match (match containing with
               | some s =>
                 if strContains (GetActualMessage exc) s then Except.ok ()
                 else Except.error (ExcCheckError.notContained s)
               | none => Except.ok ()) with
        | .error e => .error e
        | .ok _ => .ok true
    else .error (.raisedButCaught exc)
  | none => .error .raisedButWasNot

/-- Observable outcome of a with statement over an IsRaised context. -/
inductive WithOutcome where
  | completed
  | libraryFailure (e : ExcCheckError)
  | propagatedOriginal (exc : ExcInst)
deriving DecidableEq

/-- Embedding of the Python context manager protocol around the guarded
block: when the exit handler itself raises, that library failure
propagates; when it returns a truthy value, the original exception, if
any, is suppressed; when it returns a falsy value, the original exception
propagates. -/
def runGuarded (exitHandler : Option ExcInst → Except ExcCheckError Bool)
    (raised : Option ExcInst) : WithOutcome :=
  match exitHandler raised with
  | .error e => .libraryFailure e
  | .ok true => .completed
  | .ok false =>
    match raised with
    | some exc => .propagatedOriginal exc
    | none => .completed

/-- The exception classes of the library, as declared at the top of the
source: InvalidAssertionError and UnresolvedAssertionError derive from
TruthAssertionError, and UnresolvedExceptionError from
UnresolvedAssertionError. -/
inductive TruthErrorClass where
  | truthAssertionError
  | invalidAssertionError
  | unresolvedAssertionError
  | unresolvedExceptionError
deriving DecidableEq

/-- The strict superclasses of each library exception class, below
AssertionError. -/
def TruthErrorClass.strictSuperclasses : TruthErrorClass → List TruthErrorClass
  | .truthAssertionError => []
  | .invalidAssertionError => [.truthAssertionError]
  | .unresolvedAssertionError => [.truthAssertionError]
  | .unresolvedExceptionError => [.unresolvedAssertionError, .truthAssertionError]

/-- The exception class raised by _EmptySubject._Fail, the path every
ordinary failed predicate takes. -/
def ordinaryFailureClass : TruthErrorClass :=
  .truthAssertionError

/-- Embedding of _UnresolvedContextMixin.__enter__, inherited by both
_ExceptionSubject and _ExceptionClassSubject: entering the bare subject as
a context raises UnresolvedExceptionError unconditionally. -/
def UnresolvedContextEnter : Except TruthErrorClass Unit :=
  .error .unresolvedExceptionError

/-- Embedding of a with statement over the bare exception subject: enter
runs before the body; since enter raises, the body never contributes to
the outcome. -/
def runWithBareExceptionSubject {B : Type} (body : B) : Except TruthErrorClass B :=
  match UnresolvedContextEnter with
  | .error e => .error e
  | .ok _ => .ok body

end ExceptionContext

section CounterLemmas

variable {α : Type} [DecidableEq α]

theorem DuplicateCounter.WF.empty (hashable : α → Bool) :
    DuplicateCounter.WF hashable (DuplicateCounter.empty (α := α)) := by
  refine ⟨?_, ?_, ?_, ?_⟩ <;> intro p hp <;> simp [DuplicateCounter.empty] at hp

theorem alCount_nil (x : α) : alCount ([] : List (α × Nat)) x = 0 := rfl

theorem alCount_cons (p : α × Nat) (l : List (α × Nat)) (x : α) :
    alCount (p :: l) x = (if p.1 = x then p.2 else 0) + alCount l x := by
  simp [alCount]

theorem alContains_nil (x : α) : alContains ([] : List (α × Nat)) x = false := rfl

theorem alContains_cons (p : α × Nat) (l : List (α × Nat)) (x : α) :
    alContains (p :: l) x = (decide (p.1 = x) || alContains l x) := by
  simp [alContains]

theorem alCount_increment (l : List (α × Nat)) (x y : α) :
    alCount (alIncrement l x) y = alCount l y + (if y = x then 1 else 0) := by
  induction l with
  | nil =>
    by_cases h : y = x
    · subst h; simp [alIncrement, alCount]
    · have h2 : ¬(x = y) := fun hh => h hh.symm
      simp [alIncrement, alCount, h, h2]
  | cons p ps ih =>
    obtain ⟨p1, p2⟩ := p
    by_cases hp : p1 = x
    · rw [show alIncrement ((p1, p2) :: ps) x = (p1, p2 + 1) :: ps from by
        simp [alIncrement, hp]]
      rw [alCount_cons, alCount_cons]
      by_cases h : y = x
      · have h2 : p1 = y := hp.trans h.symm
        simp [h, h2]
        omega
      · have h2 : ¬(p1 = y) := fun hh => h (hh.symm.trans hp)
        simp [h, h2]
    · rw [show alIncrement ((p1, p2) :: ps) x = (p1, p2) :: alIncrement ps x from by
        simp [alIncrement, hp]]
      rw [alCount_cons, alCount_cons, ih]
      omega

theorem alContains_of_count_pos (l : List (α × Nat)) (x : α)
    (h : 0 < alCount l x) : alContains l x = true := by
  induction l with
  | nil => simp [alCount] at h
  | cons p ps ih =>
    rw [alCount_cons] at h
    rw [alContains_cons]
    by_cases hp : p.1 = x
    · simp [hp]
    · simp [hp] at h ⊢
      exact ih h

theorem count_pos_of_alContains (l : List (α × Nat)) (x : α)
    (hwf : ∀ p ∈ l, 1 ≤ p.2) (h : alContains l x = true) : 0 < alCount l x := by
  induction l with
  | nil => simp [alContains] at h
  | cons p ps ih =>
    rw [alCount_cons]
    rw [alContains_cons] at h
    by_cases hp : p.1 = x
    · have := hwf p (by simp)
      simp [hp]
      omega
    · simp [hp] at h
      have := ih (fun q hq => hwf q (by simp [hq])) h
      omega

theorem alCount_decrement_of_contains (l : List (α × Nat)) (x y : α)
    (hwf : ∀ p ∈ l, 1 ≤ p.2) (h : alContains l x = true) :
    alCount (alDecrement l x) y = alCount l y - (if y = x then 1 else 0) := by
  induction l with
  | nil => simp [alContains] at h
  | cons p ps ih =>
    obtain ⟨p1, p2⟩ := p
    by_cases hp : p1 = x
    · subst hp
      have hpos : 1 ≤ p2 := hwf (p1, p2) (by simp)
      by_cases hc : p2 > 1
      · rw [show alDecrement ((p1, p2) :: ps) p1 = (p1, p2 - 1) :: ps from by
          simp [alDecrement, hc]]
        rw [alCount_cons, alCount_cons]
        by_cases hy : y = p1
        · subst hy; simp; omega
        · have h2 : ¬(p1 = y) := fun hh => hy hh.symm
          simp [hy, h2]
      · rw [show alDecrement ((p1, p2) :: ps) p1 = ps from by
          simp [alDecrement, hc]]
        have hone : p2 = 1 := by omega
        rw [alCount_cons]
        by_cases hy : y = p1
        · subst hy; simp [hone]
        · have h2 : ¬(p1 = y) := fun hh => hy hh.symm
          simp [hy, h2]
    · rw [show alDecrement ((p1, p2) :: ps) x = (p1, p2) :: alDecrement ps x from by
        simp [alDecrement, hp]]
      rw [alContains_cons] at h
      simp [hp] at h
      have htwf : ∀ q ∈ ps, 1 ≤ q.2 := fun q hq => hwf q (by simp [hq])
      rw [alCount_cons, alCount_cons, ih htwf h]
      by_cases hy : y = x
      · subst hy
        have := count_pos_of_alContains ps y htwf h
        simp
        omega
      · simp [hy]

theorem alCount_decrement_of_not_contains (l : List (α × Nat)) (x y : α)
    (h : alContains l x = false) :
    alCount (alDecrement l x) y = alCount l y := by
  induction l with
  | nil => rfl
  | cons p ps ih =>
    rw [alContains_cons] at h
    by_cases hp : p.1 = x
    · simp [hp] at h
    · simp [hp] at h
      rw [show alDecrement (p :: ps) x = p :: alDecrement ps x from by
        simp [alDecrement, hp]]
      rw [alCount_cons, alCount_cons, ih h]

theorem alIncrement_wf (l : List (α × Nat)) (x : α)
    (hwf : ∀ p ∈ l, 1 ≤ p.2) : ∀ p ∈ alIncrement l x, 1 ≤ p.2 := by
  induction l with
  | nil => intro p hp; simp [alIncrement] at hp; simp [hp]
  | cons q qs ih =>
    intro p hp
    by_cases hq : q.1 = x
    · simp [alIncrement, hq] at hp
      rcases hp with hp | hp
      · simp [hp]
      · exact hwf p (by simp [hp])
    · simp [alIncrement, hq] at hp
      rcases hp with hp | hp
      · exact hwf p (by simp [hp])
      · exact ih (fun q hq => hwf q (by simp [hq])) p hp

theorem alIncrement_keys (l : List (α × Nat)) (x : α) (P : α → Prop)
    (hwf : ∀ p ∈ l, P p.1) (hx : P x) : ∀ p ∈ alIncrement l x, P p.1 := by
  induction l with
  | nil => intro p hp; simp [alIncrement] at hp; simp [hp, hx]
  | cons q qs ih =>
    intro p hp
    by_cases hq : q.1 = x
    · simp [alIncrement, hq] at hp
      rcases hp with hp | hp
      · subst hp; exact hx
      · exact hwf p (by simp [hp])
    · simp [alIncrement, hq] at hp
      rcases hp with hp | hp
      · exact hwf p (by simp [hp])
      · exact ih (fun q hq => hwf q (by simp [hq])) p hp

theorem alDecrement_subset (l : List (α × Nat)) (x : α) :
    ∀ p ∈ alDecrement l x, p ∈ l ∨ (∃ q ∈ l, q.1 = p.1 ∧ p.2 = q.2 - 1) := by
  induction l with
  | nil => intro p hp; simp [alDecrement] at hp
  | cons q qs ih =>
    intro p hp
    by_cases hq : q.1 = x
    · by_cases hc : q.2 > 1
      · simp [alDecrement, hq, hc] at hp
        rcases hp with hp | hp
        · exact Or.inr ⟨q, by simp, by rw [hp]; exact hq, by rw [hp]⟩
        · exact Or.inl (by simp [hp])
      · simp [alDecrement, hq, hc] at hp
        exact Or.inl (by simp [hp])
    · simp [alDecrement, hq] at hp
      rcases hp with hp | hp
      · exact Or.inl (by simp [hp])
      · rcases ih p hp with h | ⟨r, hr, hr1, hr2⟩
        · exact Or.inl (by simp [h])
        · exact Or.inr ⟨r, by simp [hr], hr1, hr2⟩

theorem alDecrement_wf (l : List (α × Nat)) (x : α)
    (hwf : ∀ p ∈ l, 1 ≤ p.2) : ∀ p ∈ alDecrement l x, 1 ≤ p.2 := by
  induction l with
  | nil => intro p hp; simp [alDecrement] at hp
  | cons q qs ih =>
    intro p hp
    by_cases hq : q.1 = x
    · by_cases hc : q.2 > 1
      · simp [alDecrement, hq, hc] at hp
        rcases hp with hp | hp
        · simp [hp]; omega
        · exact hwf p (by simp [hp])
      · simp [alDecrement, hq, hc] at hp
        exact hwf p (by simp [hp])
    · simp [alDecrement, hq] at hp
      rcases hp with hp | hp
      · exact hwf p (by simp [hp])
      · exact ih (fun q hq => hwf q (by simp [hq])) p hp

theorem alDecrement_keys (l : List (α × Nat)) (x : α) (P : α → Prop)
    (hwf : ∀ p ∈ l, P p.1) : ∀ p ∈ alDecrement l x, P p.1 := by
  intro p hp
  rcases alDecrement_subset l x p hp with h | ⟨q, hq, hq1, _⟩
  · exact hwf p h
  · have := hwf q hq
    rw [← hq1]
    exact this

theorem alDecrement_alIncrement (l : List (α × Nat)) (x : α)
    (hwf : ∀ p ∈ l, 1 ≤ p.2) : alDecrement (alIncrement l x) x = l := by
  induction l with
  | nil => simp [alIncrement, alDecrement]
  | cons p ps ih =>
    obtain ⟨p1, p2⟩ := p
    by_cases hp : p1 = x
    · have h1 : 1 ≤ p2 := hwf (p1, p2) (by simp)
      have h2 : p2 + 1 > 1 := by omega
      simp [alIncrement, hp, alDecrement, h2]
    · simp [alIncrement, hp, alDecrement,
        ih (fun q hq => hwf q (by simp [hq]))]

end CounterLemmas

section DCLemmas

variable {α : Type} [DecidableEq α] (hashable : α → Bool)

theorem alCount_eq_zero_of_keys (l : List (α × Nat)) (x : α)
    (h : ∀ p ∈ l, p.1 ≠ x) : alCount l x = 0 := by
  induction l with
  | nil => rfl
  | cons p ps ih =>
    rw [alCount_cons]
    have h1 : p.1 ≠ x := h p (by simp)
    simp [h1]
    exact ih (fun q hq => h q (by simp [hq]))

theorem alCount_ge_of_mem (l : List (α × Nat)) (p : α × Nat) (h : p ∈ l) :
    p.2 ≤ alCount l p.1 := by
  induction l with
  | nil => simp at h
  | cons q qs ih =>
    rw [alCount_cons]
    rcases List.mem_cons.mp h with h | h
    · subst h
      simp
    · have := ih h
      omega

theorem increment_hashable (c : DuplicateCounter α) (x : α) (hx : hashable x = true) :
    DuplicateCounter.Increment hashable c x = ⟨alIncrement c.d x, c.unhashable⟩ := by
  simp [DuplicateCounter.Increment, hx]

theorem increment_unhashable (c : DuplicateCounter α) (x : α) (hx : hashable x = false) :
    DuplicateCounter.Increment hashable c x = ⟨c.d, alIncrement c.unhashable x⟩ := by
  simp [DuplicateCounter.Increment, hx]

theorem decrement_hashable (c : DuplicateCounter α) (x : α) (hx : hashable x = true) :
    DuplicateCounter.Decrement hashable c x = ⟨alDecrement c.d x, c.unhashable⟩ := by
  simp [DuplicateCounter.Decrement, hx]

theorem decrement_unhashable (c : DuplicateCounter α) (x : α) (hx : hashable x = false) :
    DuplicateCounter.Decrement hashable c x = ⟨c.d, alDecrement c.unhashable x⟩ := by
  simp [DuplicateCounter.Decrement, hx]

theorem count_Increment (c : DuplicateCounter α) (x y : α) :
    (DuplicateCounter.Increment hashable c x).count y
      = c.count y + (if y = x then 1 else 0) := by
  cases hx : hashable x
  · rw [increment_unhashable hashable c x hx]
    show alCount c.d y + alCount (alIncrement c.unhashable x) y = _
    rw [alCount_increment]
    show _ = alCount c.d y + alCount c.unhashable y + _
    omega
  · rw [increment_hashable hashable c x hx]
    show alCount (alIncrement c.d x) y + alCount c.unhashable y = _
    rw [alCount_increment]
    show _ = alCount c.d y + alCount c.unhashable y + _
    omega

theorem unhashable_count_zero (c : DuplicateCounter α) (x : α)
    (hwf : c.WF hashable) (hx : hashable x = true) : alCount c.unhashable x = 0 :=
  alCount_eq_zero_of_keys _ _ (fun p hp he => by
    have := hwf.2.2.2 p hp
    rw [he, hx] at this
    exact Bool.noConfusion this)

theorem hashable_count_zero (c : DuplicateCounter α) (x : α)
    (hwf : c.WF hashable) (hx : hashable x = false) : alCount c.d x = 0 :=
  alCount_eq_zero_of_keys _ _ (fun p hp he => by
    have := hwf.2.2.1 p hp
    rw [he, hx] at this
    exact Bool.noConfusion this)

theorem contains_iff_count_pos (c : DuplicateCounter α) (x : α)
    (hwf : c.WF hashable) :
    DuplicateCounter.contains hashable c x = true ↔ 0 < c.count x := by
  cases hx : hashable x
  · have hzero := hashable_count_zero hashable c x hwf hx
    constructor
    · intro h
      rw [show DuplicateCounter.contains hashable c x = alContains c.unhashable x from by
        simp [DuplicateCounter.contains, hx]] at h
      have := count_pos_of_alContains c.unhashable x hwf.2.1 h
      show 0 < alCount c.d x + alCount c.unhashable x
      omega
    · intro h
      have h2 : 0 < alCount c.unhashable x := by
        have h3 : 0 < alCount c.d x + alCount c.unhashable x := h
        omega
      rw [show DuplicateCounter.contains hashable c x = alContains c.unhashable x from by
        simp [DuplicateCounter.contains, hx]]
      exact alContains_of_count_pos c.unhashable x h2
  · have hzero := unhashable_count_zero hashable c x hwf hx
    constructor
    · intro h
      rw [show DuplicateCounter.contains hashable c x = alContains c.d x from by
        simp [DuplicateCounter.contains, hx]] at h
      have := count_pos_of_alContains c.d x hwf.1 h
      show 0 < alCount c.d x + alCount c.unhashable x
      omega
    · intro h
      have h2 : 0 < alCount c.d x := by
        have h3 : 0 < alCount c.d x + alCount c.unhashable x := h
        omega
      rw [show DuplicateCounter.contains hashable c x = alContains c.d x from by
        simp [DuplicateCounter.contains, hx]]
      exact alContains_of_count_pos c.d x h2

theorem count_Decrement_of_contains (c : DuplicateCounter α) (x y : α)
    (hwf : c.WF hashable) (hc : DuplicateCounter.contains hashable c x = true) :
    (DuplicateCounter.Decrement hashable c x).count y
      = c.count y - (if y = x then 1 else 0) := by
  cases hx : hashable x
  · rw [show DuplicateCounter.contains hashable c x = alContains c.unhashable x from by
      simp [DuplicateCounter.contains, hx]] at hc
    rw [decrement_unhashable hashable c x hx]
    show alCount c.d y + alCount (alDecrement c.unhashable x) y = _
    rw [alCount_decrement_of_contains c.unhashable x y hwf.2.1 hc]
    show _ = alCount c.d y + alCount c.unhashable y - _
    by_cases hy : y = x
    · subst hy
      have hzero := hashable_count_zero hashable c y hwf hx
      have := count_pos_of_alContains c.unhashable y hwf.2.1 hc
      simp [hzero]
    · simp [hy]
  · rw [show DuplicateCounter.contains hashable c x = alContains c.d x from by
      simp [DuplicateCounter.contains, hx]] at hc
    rw [decrement_hashable hashable c x hx]
    show alCount (alDecrement c.d x) y + alCount c.unhashable y = _
    rw [alCount_decrement_of_contains c.d x y hwf.1 hc]
    show _ = alCount c.d y + alCount c.unhashable y - _
    by_cases hy : y = x
    · subst hy
      have hzero := unhashable_count_zero hashable c y hwf hx
      have := count_pos_of_alContains c.d y hwf.1 hc
      simp [hzero]
    · simp [hy]

theorem count_Decrement_of_not_contains (c : DuplicateCounter α) (x y : α)
    (hc : DuplicateCounter.contains hashable c x = false) :
    (DuplicateCounter.Decrement hashable c x).count y = c.count y := by
  cases hx : hashable x
  · rw [show DuplicateCounter.contains hashable c x = alContains c.unhashable x from by
      simp [DuplicateCounter.contains, hx]] at hc
    rw [decrement_unhashable hashable c x hx]
    show alCount c.d y + alCount (alDecrement c.unhashable x) y = _
    rw [alCount_decrement_of_not_contains _ _ _ hc]
    rfl
  · rw [show DuplicateCounter.contains hashable c x = alContains c.d x from by
      simp [DuplicateCounter.contains, hx]] at hc
    rw [decrement_hashable hashable c x hx]
    show alCount (alDecrement c.d x) y + alCount c.unhashable y = _
    rw [alCount_decrement_of_not_contains _ _ _ hc]
    rfl

theorem WF_Increment (c : DuplicateCounter α) (x : α) (hwf : c.WF hashable) :
    (DuplicateCounter.Increment hashable c x).WF hashable := by
  obtain ⟨hd, hu, hkd, hku⟩ := hwf
  cases hx : hashable x
  · rw [increment_unhashable hashable c x hx]
    exact ⟨hd, alIncrement_wf c.unhashable x hu, hkd,
      alIncrement_keys c.unhashable x (fun a => hashable a = false) hku hx⟩
  · rw [increment_hashable hashable c x hx]
    exact ⟨alIncrement_wf c.d x hd, hu,
      alIncrement_keys c.d x (fun a => hashable a = true) hkd hx, hku⟩

theorem WF_Decrement (c : DuplicateCounter α) (x : α) (hwf : c.WF hashable) :
    (DuplicateCounter.Decrement hashable c x).WF hashable := by
  obtain ⟨hd, hu, hkd, hku⟩ := hwf
  cases hx : hashable x
  · rw [decrement_unhashable hashable c x hx]
    exact ⟨hd, alDecrement_wf c.unhashable x hu, hkd,
      alDecrement_keys c.unhashable x (fun a => hashable a = false) hku⟩
  · rw [decrement_hashable hashable c x hx]
    exact ⟨alDecrement_wf c.d x hd, hu,
      alDecrement_keys c.d x (fun a => hashable a = true) hkd, hku⟩

theorem size_zero_iff_counts (c : DuplicateCounter α) (hwf : c.WF hashable) :
    c.size = 0 ↔ ∀ y, c.count y = 0 := by
  obtain ⟨hd, hu, _, _⟩ := hwf
  constructor
  · intro h y
    have hsum : c.d.length + c.unhashable.length = 0 := h
    have h1 : c.d = [] := List.length_eq_zero.mp (by omega)
    have h2 : c.unhashable = [] := List.length_eq_zero.mp (by omega)
    simp [DuplicateCounter.count, h1, h2, alCount]
  · intro h
    cases hda : c.d with
    | cons p ps =>
      have hp := alCount_ge_of_mem c.d p (by simp [hda])
      have hp2 := hd p (by simp [hda])
      have h3 : alCount c.d p.1 + alCount c.unhashable p.1 = 0 := h p.1
      omega
    | nil =>
      cases hua : c.unhashable with
      | cons p ps =>
        have hp := alCount_ge_of_mem c.unhashable p (by simp [hua])
        have hp2 := hu p (by simp [hua])
        have h3 : alCount c.d p.1 + alCount c.unhashable p.1 = 0 := h p.1
        omega
      | nil => simp [DuplicateCounter.size, hda, hua]

theorem count_empty (x : α) : (DuplicateCounter.empty (α := α)).count x = 0 := rfl

theorem decrement_increment (c : DuplicateCounter α) (x : α)
    (hwf : c.WF hashable) :
    DuplicateCounter.Decrement hashable (DuplicateCounter.Increment hashable c x) x = c := by
  obtain ⟨hd, hu, _, _⟩ := hwf
  cases hx : hashable x
  · rw [increment_unhashable hashable c x hx,
      decrement_unhashable hashable ⟨c.d, alIncrement c.unhashable x⟩ x hx]
    show (⟨c.d, alDecrement (alIncrement c.unhashable x) x⟩ : DuplicateCounter α) = c
    rw [alDecrement_alIncrement c.unhashable x hu]
  · rw [increment_hashable hashable c x hx,
      decrement_hashable hashable ⟨alIncrement c.d x, c.unhashable⟩ x hx]
    show (⟨alDecrement (alIncrement c.d x) x, c.unhashable⟩ : DuplicateCounter α) = c
    rw [alDecrement_alIncrement c.d x hd]

end DCLemmas

section ContainmentLemmas

variable {α : Type} [DecidableEq α] (hashable : α → Bool)

theorem foldl_increment_count (l : List α) (c : DuplicateCounter α) (x : α) :
    (l.foldl (DuplicateCounter.Increment hashable) c).count x
      = c.count x + l.count x := by
  induction l generalizing c with
  | nil => simp
  | cons a as ih =>
    rw [List.foldl_cons, ih, count_Increment]
    rw [List.count_cons]
    by_cases h : a = x
    · subst h
      simp
      omega
    · have h2 : ¬(x = a) := fun hh => h hh.symm
      simp [h, h2]

theorem foldl_increment_wf (l : List α) (c : DuplicateCounter α)
    (hwf : c.WF hashable) :
    (l.foldl (DuplicateCounter.Increment hashable) c).WF hashable := by
  induction l generalizing c with
  | nil => exact hwf
  | cons a as ih => exact ih _ (WF_Increment hashable c a hwf)

theorem dcOfList_count (l : List α) (x : α) :
    (dcOfList hashable l).count x = l.count x := by
  rw [dcOfList, foldl_increment_count, count_empty]
  omega

theorem dcOfList_wf (l : List α) : (dcOfList hashable l).WF hashable :=
  foldl_increment_wf hashable l _ (DuplicateCounter.WF.empty hashable)

theorem reconcile_spec (L : List α) (m e : DuplicateCounter α)
    (hm : m.WF hashable) (he : e.WF hashable) :
    (reconcile hashable L m e).1.WF hashable ∧
    (reconcile hashable L m e).2.WF hashable ∧
    (∀ x, (reconcile hashable L m e).1.count x = m.count x - L.count x) ∧
    (∀ x, (reconcile hashable L m e).2.count x
      = e.count x + (L.count x - m.count x)) := by
  induction L generalizing m e with
  | nil =>
    refine ⟨hm, he, fun x => by simp [reconcile], fun x => by simp [reconcile]⟩
  | cons a L ih =>
    by_cases hc : DuplicateCounter.contains hashable m a = true
    · have hpos : 0 < m.count a := (contains_iff_count_pos hashable m a hm).mp hc
      have hm2 := WF_Decrement hashable m a hm
      have hrec : reconcile hashable (a :: L) m e
          = reconcile hashable L (DuplicateCounter.Decrement hashable m a) e := by
        simp [reconcile, hc]
      obtain ⟨ih1, ih2, ih3, ih4⟩ := ih (DuplicateCounter.Decrement hashable m a) e hm2 he
      rw [hrec]
      refine ⟨ih1, ih2, fun x => ?_, fun x => ?_⟩
      · rw [ih3, count_Decrement_of_contains hashable m a x hm hc, List.count_cons]
        by_cases hx : x = a
        · subst hx
          simp
          omega
        · have h2 : ¬(a = x) := fun hh => hx hh.symm
          simp [hx, h2]
      · rw [ih4, count_Decrement_of_contains hashable m a x hm hc, List.count_cons]
        by_cases hx : x = a
        · subst hx
          simp
          omega
        · have h2 : ¬(a = x) := fun hh => hx hh.symm
          simp [hx, h2]
    · have hc2 : DuplicateCounter.contains hashable m a = false := by
        cases h : DuplicateCounter.contains hashable m a
        · rfl
        · exact absurd h hc
      have hzero : m.count a = 0 := by
        by_contra hne
        have hpos : 0 < m.count a := by omega
        have h3 := (contains_iff_count_pos hashable m a hm).mpr hpos
        rw [hc2] at h3
        exact Bool.noConfusion h3
      have he2 := WF_Increment hashable e a he
      have hrec : reconcile hashable (a :: L) m e
          = reconcile hashable L m (DuplicateCounter.Increment hashable e a) := by
        simp [reconcile, hc2]
      obtain ⟨ih1, ih2, ih3, ih4⟩ := ih m (DuplicateCounter.Increment hashable e a) hm he2
      rw [hrec]
      refine ⟨ih1, ih2, fun x => ?_, fun x => ?_⟩
      · rw [ih3, List.count_cons]
        by_cases hx : x = a
        · subst hx
          simp
          omega
        · have h2 : ¬(a = x) := fun hh => hx hh.symm
          simp [hx, h2]
      · rw [ih4, count_Increment, List.count_cons]
        by_cases hx : x = a
        · subst hx
          simp
          omega
        · have h2 : ¬(a = x) := fun hh => hx hh.symm
          simp [hx, h2]

theorem isNonempty_false_of_size_zero (c : DuplicateCounter α) (h : c.size = 0) :
    c.isNonempty = false := by
  simp [DuplicateCounter.isNonempty, h]

theorem InOrder_ok_iff (o : Ordered α) :
    Ordered.InOrder o = .ok () ↔ o = .inOrder := by
  cases o <;> simp [Ordered.InOrder]

theorem walk_perm (origA origE : List α) (as : List α) :
    ∀ es : List α, as.Perm es →
      ∃ o, containsExactlyWalk hashable origA origE as es = .ok o ∧
        (o = .inOrder ↔ as = es) := by
  induction as with
  | nil =>
    intro es h
    have : es = [] := List.Perm.eq_nil h.symm
    subst this
    exact ⟨.inOrder, rfl, by simp⟩
  | cons a as ih =>
    intro es h
    cases es with
    | nil =>
      have := List.Perm.eq_nil h
      simp at this
    | cons e es =>
      by_cases hae : a = e
      · subst hae
        have h2 : as.Perm es := List.Perm.cons_inv h
        obtain ⟨o, hok, hiff⟩ := ih es h2
        refine ⟨o, ?_, ?_⟩
        · rw [show containsExactlyWalk hashable origA origE (a :: as) (a :: es)
            = containsExactlyWalk hashable origA origE as es from by
              simp [containsExactlyWalk]]
          exact hok
        · rw [hiff]
          simp
      · have hm := dcOfList_wf hashable (e :: es)
        have hcounts : ∀ x, List.count x (a :: as) = List.count x (e :: es) :=
          fun x => h.count_eq x
        obtain ⟨r1wf, r2wf, r1c, r2c⟩ := reconcile_spec hashable (a :: as)
          (dcOfList hashable (e :: es)) DuplicateCounter.empty hm
          (DuplicateCounter.WF.empty hashable)
        have hz1 : ∀ x, (reconcile hashable (a :: as) (dcOfList hashable (e :: es))
            DuplicateCounter.empty).1.count x = 0 := by
          intro x
          rw [r1c x, dcOfList_count, hcounts x]
          omega
        have hz2 : ∀ x, (reconcile hashable (a :: as) (dcOfList hashable (e :: es))
            DuplicateCounter.empty).2.count x = 0 := by
          intro x
          rw [r2c x, dcOfList_count, hcounts x, count_empty]
          omega
        have hs1 := isNonempty_false_of_size_zero _
          ((size_zero_iff_counts hashable _ r1wf).mpr hz1)
        have hs2 := isNonempty_false_of_size_zero _
          ((size_zero_iff_counts hashable _ r2wf).mpr hz2)
        refine ⟨.notInOrder origA "contains exactly these elements in order" origE,
          ?_, by simp [hae]⟩
        rw [show containsExactlyWalk hashable origA origE (a :: as) (e :: es)
          = (if (reconcile hashable (a :: as) (dcOfList hashable (e :: es))
                DuplicateCounter.empty).1.isNonempty then
              if (reconcile hashable (a :: as) (dcOfList hashable (e :: es))
                  DuplicateCounter.empty).2.isNonempty then
                .error (.exactlyMissingAndExtra origE
                  (reconcile hashable (a :: as) (dcOfList hashable (e :: es))
                    DuplicateCounter.empty).1
                  (reconcile hashable (a :: as) (dcOfList hashable (e :: es))
                    DuplicateCounter.empty).2)
              else .error (.exactlyMissing origE
                (reconcile hashable (a :: as) (dcOfList hashable (e :: es))
                  DuplicateCounter.empty).1)
            else if (reconcile hashable (a :: as) (dcOfList hashable (e :: es))
                DuplicateCounter.empty).2.isNonempty then
              .error (.exactlyExtra origE
                (reconcile hashable (a :: as) (dcOfList hashable (e :: es))
                  DuplicateCounter.empty).2)
            else .ok (.notInOrder origA
              "contains exactly these elements in order" origE)
            : Except (ContainsError α) (Ordered α)) from by
          simp [containsExactlyWalk, hae]]
        rw [hs1, hs2]
        simp

end ContainmentLemmas

/-- C1: for every finite sequence A and every permutation B of A, asserting
that A contains exactly the elements in B raises no error and returns an
ordered adverb, and chaining the InOrder check onto that result succeeds
exactly when A and B are identical element for element as sequences. -/
theorem claim_C1_contains_exactly_permutation {α : Type} [DecidableEq α]
    (hashable : α → Bool) (A B : List α) (h : A.Perm B) :
    (ContainsExactlyElementsIn hashable A B).isOk = true ∧
    (resultInOrder (ContainsExactlyElementsIn hashable A B) = .ok () ↔ A = B) := by
  cases B with
  | nil =>
    have hA : A = [] := List.Perm.eq_nil h
    subst hA
    exact ⟨rfl, by simp [ContainsExactlyElementsIn, resultInOrder, Ordered.InOrder]⟩
  | cons b bs =>
    obtain ⟨o, hok, hiff⟩ := walk_perm hashable A (b :: bs) A (b :: bs) h
    have hrw : ContainsExactlyElementsIn hashable A (b :: bs)
        = containsExactlyWalk hashable A (b :: bs) A (b :: bs) := by
      simp [ContainsExactlyElementsIn]
    rw [hrw, hok]
    refine ⟨rfl, ?_⟩
    rw [show resultInOrder (.ok o) = o.InOrder from rfl, InOrder_ok_iff]
    exact hiff

/-- Witness for C1 at a concrete permutation: the list 1, 2, 3 against its
reversal succeeds, and the chained InOrder check succeeds exactly when the
two sequences coincide, which here they do not. -/
theorem claim_C1_witness :
    (ContainsExactlyElementsIn (fun _ => true) [1, 2, 3] [3, 2, 1]).isOk = true ∧
    (resultInOrder (ContainsExactlyElementsIn (fun _ => true) [1, 2, 3] [3, 2, 1])
        = .ok () ↔ ([1, 2, 3] : List Nat) = [3, 2, 1]) :=
  claim_C1_contains_exactly_permutation (fun _ => true) [1, 2, 3] [3, 2, 1]
    (by decide)

/-- C6: ContainsExactlyElementsIn applied to an empty expected collection
fails with the is-empty proposition exactly when the actual value is
nonempty, and returns the in-order adverb when the actual value is empty. -/
theorem claim_C6_contains_exactly_empty {α : Type} [DecidableEq α]
    (hashable : α → Bool) (actual : List α) :
    (ContainsExactlyElementsIn hashable actual [] = .error .isEmpty ↔ actual ≠ []) ∧
    (actual = [] → ContainsExactlyElementsIn hashable actual [] = .ok .inOrder) := by
  cases actual <;> simp [ContainsExactlyElementsIn]

/-- Witness for C6 at concrete inputs: the empty actual passes and a
singleton actual fails with the is-empty proposition. -/
theorem claim_C6_witness :
    ContainsExactlyElementsIn (fun _ => true) ([] : List Nat) [] = .ok .inOrder ∧
    ContainsExactlyElementsIn (fun _ => true) [7] [] = .error .isEmpty :=
  ⟨(claim_C6_contains_exactly_empty (fun _ => true) []).2 rfl,
    (claim_C6_contains_exactly_empty (fun _ => true) [7]).1.mpr (by simp)⟩

/-- C10: ContainsAnyIn with an empty expected collection, and ContainsAnyOf
invoked with zero arguments, fail for every actual iterable, including the
empty one, with the contains-any failure listing the empty expected
tuple. -/
theorem claim_C10_contains_any_empty {α : Type} [DecidableEq α]
    (actual : List α) :
    ContainsAnyIn actual [] = .error (.anyFailure "contains any element in" []) ∧
    ContainsAnyOf actual [] = .error (.anyFailure "contains any of" []) :=
  ⟨rfl, rfl⟩

section ContainsAllLemmas

variable {α : Type} [DecidableEq α] (hashable : α → Bool)

theorem count_cons_eq (x a : α) (l : List α) :
    List.count x (a :: l) = List.count x l + (if x = a then 1 else 0) := by
  rw [List.count_cons]
  by_cases h : x = a
  · simp [h]
  · have h2 : ¬(a = x) := fun hh => h hh.symm
    simp [h, h2]

theorem splitAtFirst_spec (x : α) (l : List α) :
    ∀ pre post, splitAtFirst x l = some (pre, post) →
      l = pre ++ x :: post ∧ x ∉ pre := by
  induction l with
  | nil => intro pre post h; simp [splitAtFirst] at h
  | cons a as ih =>
    intro pre post h
    by_cases ha : a = x
    · simp [splitAtFirst, ha] at h
      obtain ⟨h1, h2⟩ := h
      subst h1
      subst h2
      subst ha
      exact ⟨rfl, by simp⟩
    · cases hsp : splitAtFirst x as with
      | none => simp [splitAtFirst, ha, hsp] at h
      | some pq =>
        obtain ⟨p, q⟩ := pq
        simp [splitAtFirst, ha, hsp] at h
        obtain ⟨h1, h2⟩ := h
        subst h1
        subst h2
        obtain ⟨ih1, ih2⟩ := ih p q hsp
        refine ⟨by rw [ih1]; rfl, ?_⟩
        intro hx
        rcases List.mem_cons.mp hx with hx | hx
        · exact ha hx.symm
        · exact ih2 hx

theorem mem_poolAdd (pool : List α) (y x : α) :
    x ∈ poolAdd pool y ↔ x ∈ pool ∨ x = y := by
  by_cases h : y ∈ pool
  · simp only [poolAdd, if_pos h]
    exact ⟨fun hx => Or.inl hx, fun hx => hx.elim id (fun he => he ▸ h)⟩
  · simp [poolAdd, h]

theorem nodup_poolAdd (pool : List α) (y : α) (h : pool.Nodup) :
    (poolAdd pool y).Nodup := by
  by_cases hy : y ∈ pool
  · simp only [poolAdd, if_pos hy]
    exact h
  · simp only [poolAdd, if_neg hy]
    rw [List.nodup_append]
    refine ⟨h, List.nodup_singleton y, fun a ha hb => ?_⟩
    simp at hb
    subst hb
    exact hy ha

theorem mem_foldl_poolAdd (pre : List α) (pool : List α) (x : α) :
    x ∈ pre.foldl poolAdd pool ↔ x ∈ pool ∨ x ∈ pre := by
  induction pre generalizing pool with
  | nil => simp
  | cons a as ih =>
    rw [List.foldl_cons, ih, mem_poolAdd]
    simp [List.mem_cons]
    tauto

theorem nodup_foldl_poolAdd (pre : List α) (pool : List α) (h : pool.Nodup) :
    (pre.foldl poolAdd pool).Nodup := by
  induction pre generalizing pool with
  | nil => exact h
  | cons a as ih => exact ih _ (nodup_poolAdd pool a h)

theorem mem_removeFirst_subset (l : List α) (y x : α)
    (h : x ∈ removeFirst l y) : x ∈ l := by
  induction l with
  | nil => simp [removeFirst] at h
  | cons a as ih =>
    by_cases ha : a = y
    · simp only [removeFirst, if_pos ha] at h
      exact List.mem_cons_of_mem a h
    · simp only [removeFirst, if_neg ha] at h
      rcases List.mem_cons.mp h with h | h
      · exact h ▸ List.mem_cons_self a as
      · exact List.mem_cons_of_mem a (ih h)

theorem nodup_removeFirst (l : List α) (y : α) (h : l.Nodup) :
    (removeFirst l y).Nodup := by
  induction l with
  | nil => exact h
  | cons a as ih =>
    obtain ⟨ha, has⟩ := List.nodup_cons.mp h
    by_cases hay : a = y
    · simp only [removeFirst, if_pos hay]
      exact has
    · simp only [removeFirst, if_neg hay]
      rw [List.nodup_cons]
      exact ⟨fun hmem => ha (mem_removeFirst_subset as y a hmem), ih has⟩

theorem not_mem_removeFirst_self (l : List α) (y : α) (h : l.Nodup) :
    y ∉ removeFirst l y := by
  induction l with
  | nil => simp [removeFirst]
  | cons a as ih =>
    obtain ⟨ha, has⟩ := List.nodup_cons.mp h
    by_cases hay : a = y
    · simp only [removeFirst, if_pos hay]
      rw [← hay]
      exact fun hmem => (hay ▸ ha) (hay ▸ hmem)
    · simp only [removeFirst, if_neg hay]
      intro hmem
      rcases List.mem_cons.mp hmem with hmem | hmem
      · exact hay hmem.symm
      · exact ih has hmem

theorem mem_removeFirst_of_ne (l : List α) (y x : α) (hxy : x ≠ y) :
    x ∈ removeFirst l y ↔ x ∈ l := by
  induction l with
  | nil => simp [removeFirst]
  | cons a as ih =>
    by_cases hay : a = y
    · simp only [removeFirst, if_pos hay]
      constructor
      · exact List.mem_cons_of_mem a
      · intro hmem
        rcases List.mem_cons.mp hmem with hmem | hmem
        · exact absurd (hmem.trans hay) hxy
        · exact hmem
    · simp only [removeFirst, if_neg hay, List.mem_cons, ih]

theorem containsAllLoop_spec (expected : List α) :
    ∀ (actualList pool : List α) (missing : DuplicateCounter α) (ordered : Bool),
      missing.WF hashable → pool.Nodup →
      (containsAllLoop hashable expected actualList pool missing ordered).1.WF hashable ∧
      ∀ x, missing.count x + List.count x expected ≤
        (containsAllLoop hashable expected actualList pool missing ordered).1.count x
          + List.count x actualList + (if x ∈ pool then 1 else 0) := by
  induction expected with
  | nil =>
    intro aL pool m ord hm hp
    refine ⟨hm, fun x => ?_⟩
    simp [containsAllLoop]
    omega
  | cons i rest ih =>
    intro aL pool m ord hm hp
    cases hsp : splitAtFirst i aL with
    | some pq =>
      obtain ⟨pre, post⟩ := pq
      obtain ⟨hal, hipre⟩ := splitAtFirst_spec i aL pre post hsp
      have hrw : containsAllLoop hashable (i :: rest) aL pool m ord
          = containsAllLoop hashable rest post (pre.foldl poolAdd pool) m ord := by
        simp [containsAllLoop, hsp]
      obtain ⟨ihwf, ihle⟩ := ih post (pre.foldl poolAdd pool) m ord hm
        (nodup_foldl_poolAdd pre pool hp)
      rw [hrw]
      refine ⟨ihwf, fun x => ?_⟩
      have hle := ihle x
      subst hal
      rw [List.count_append, count_cons_eq, count_cons_eq]
      by_cases hx : x = i
      · subst hx
        have hpre0 : List.count x pre = 0 := List.count_eq_zero.mpr hipre
        have hind : (if x ∈ pre.foldl poolAdd pool then (1 : Nat) else 0)
            = (if x ∈ pool then 1 else 0) := by
          by_cases hh : x ∈ pool
          · rw [if_pos ((mem_foldl_poolAdd pre pool x).mpr (Or.inl hh)), if_pos hh]
          · have : x ∉ pre.foldl poolAdd pool := by
              rw [mem_foldl_poolAdd]
              rintro (h | h)
              · exact hh h
              · exact hipre h
            rw [if_neg this, if_neg hh]
        rw [hind] at hle
        simp only [if_pos rfl]
        omega
      · have hind : (if x ∈ pre.foldl poolAdd pool then (1 : Nat) else 0)
            ≤ (if x ∈ pool then 1 else 0) + List.count x pre := by
          by_cases hh : x ∈ pre.foldl poolAdd pool
          · rw [if_pos hh]
            rcases (mem_foldl_poolAdd pre pool x).mp hh with h | h
            · rw [if_pos h]
              omega
            · have := List.count_pos_iff.mpr h
              omega
          · rw [if_neg hh]
            omega
        rw [if_neg hx]
        omega
    | none =>
      by_cases hpool : i ∈ pool
      · have hrw : containsAllLoop hashable (i :: rest) aL pool m ord
            = containsAllLoop hashable rest aL (removeFirst pool i) m false := by
          simp [containsAllLoop, hsp, hpool]
        obtain ⟨ihwf, ihle⟩ := ih aL (removeFirst pool i) m false hm
          (nodup_removeFirst pool i hp)
        rw [hrw]
        refine ⟨ihwf, fun x => ?_⟩
        have hle := ihle x
        rw [count_cons_eq]
        by_cases hx : x = i
        · subst hx
          rw [if_neg (not_mem_removeFirst_self pool x hp)] at hle
          rw [if_pos rfl, if_pos hpool]
          omega
        · have hiff := mem_removeFirst_of_ne pool i x hx
          have hind : (if x ∈ removeFirst pool i then (1 : Nat) else 0)
              = (if x ∈ pool then 1 else 0) := by
            by_cases hh : x ∈ pool
            · rw [if_pos (hiff.mpr hh), if_pos hh]
            · rw [if_neg (fun hmem => hh (hiff.mp hmem)), if_neg hh]
          rw [hind] at hle
          rw [if_neg hx]
          omega
      · have hrw : containsAllLoop hashable (i :: rest) aL pool m ord
            = containsAllLoop hashable rest aL pool
                (DuplicateCounter.Increment hashable m i) ord := by
          simp [containsAllLoop, hsp, hpool]
        obtain ⟨ihwf, ihle⟩ := ih aL pool
          (DuplicateCounter.Increment hashable m i) ord
          (WF_Increment hashable m i hm) hp
        rw [hrw]
        refine ⟨ihwf, fun x => ?_⟩
        have hle := ihle x
        rw [count_Increment] at hle
        rw [count_cons_eq]
        by_cases hx : x = i
        · rw [if_pos hx] at hle ⊢
          omega
        · rw [if_neg hx] at hle ⊢
          omega

theorem containsAll_ok_counts (verb : String) (A E : List α) (o : Ordered α)
    (h : ContainsAll hashable verb A E = .ok o) :
    ∀ x, List.count x E ≤ List.count x A := by
  intro x
  obtain ⟨hwf, hle⟩ := containsAllLoop_spec hashable E A [] DuplicateCounter.empty
    true (DuplicateCounter.WF.empty _) List.nodup_nil
  cases hne : (containsAllLoop hashable E A [] DuplicateCounter.empty true).1.isNonempty
  · have hz : (containsAllLoop hashable E A [] DuplicateCounter.empty true).1.size = 0 := by
      simp [DuplicateCounter.isNonempty] at hne
      omega
    have hc := (size_zero_iff_counts hashable _ hwf).mp hz x
    have hlex := hle x
    rw [count_empty, hc] at hlex
    simp at hlex
    omega
  · exfalso
    rw [show ContainsAll hashable verb A E
        = .error (.missingAll verb E
            (containsAllLoop hashable E A [] DuplicateCounter.empty true).1) from by
      simp [ContainsAll, hne]] at h
    exact Except.noConfusion h

theorem containsAll_error_shape (verb : String) (A E : List α)
    (err : ContainsError α) (h : ContainsAll hashable verb A E = .error err) :
    err = .missingAll verb E
      (containsAllLoop hashable E A [] DuplicateCounter.empty true).1 := by
  cases hne : (containsAllLoop hashable E A [] DuplicateCounter.empty true).1.isNonempty
  · exfalso
    rw [show ContainsAll hashable verb A E
        = (if (containsAllLoop hashable E A [] DuplicateCounter.empty true).2
           then .ok .inOrder
           else .ok (.notInOrder A "contains all elements in order" E)) from by
      simp [ContainsAll, hne]] at h
    cases hord : (containsAllLoop hashable E A [] DuplicateCounter.empty true).2 <;>
      rw [hord] at h <;> simp at h
  · rw [show ContainsAll hashable verb A E
        = .error (.missingAll verb E
            (containsAllLoop hashable E A [] DuplicateCounter.empty true).1) from by
      simp [ContainsAll, hne]] at h
    exact (Except.error.injEq _ _).mp h |>.symm

end ContainsAllLemmas

section ExceptionLemmas

theorem IsRaisedExit_cases (template : ExcInst) (raised : Option ExcInst) :
    IsRaisedExit template raised = .ok true ∨
    ∃ e, IsRaisedExit template raised = .error e := by
  cases raised with
  | none => exact Or.inr ⟨_, rfl⟩
  | some exc =>
    by_cases hsub : issubclass exc.ty template.ty
    · simp only [IsRaisedExit, if_pos hsub]
      split
      · exact Or.inr ⟨_, rfl⟩
      · split
        · exact Or.inr ⟨_, rfl⟩
        · exact Or.inl rfl
    · simp only [IsRaisedExit, if_neg hsub]
      exact Or.inr ⟨_, rfl⟩

theorem IsRaisedClassExit_cases (reSearch : String → String → Bool)
    (expectedTy : PyType) (matching containing : Option String)
    (raised : Option ExcInst) :
    IsRaisedClassExit reSearch expectedTy matching containing raised = .ok true ∨
    ∃ e, IsRaisedClassExit reSearch expectedTy matching containing raised
      = .error e := by
  cases raised with
  | none => exact Or.inr ⟨_, rfl⟩
  | some exc =>
    by_cases hsub : issubclass exc.ty expectedTy
    · simp only [IsRaisedClassExit, if_pos hsub]
      split
      · exact Or.inr ⟨_, rfl⟩
      · split
        · exact Or.inr ⟨_, rfl⟩
        · exact Or.inl rfl
    · simp only [IsRaisedClassExit, if_neg hsub]
      exact Or.inr ⟨_, rfl⟩

theorem runGuarded_of_ok_true (handler : Option ExcInst → Except ExcCheckError Bool)
    (raised : Option ExcInst) (h : handler raised = .ok true) :
    runGuarded handler raised = .completed := by
  simp [runGuarded, h]

theorem runGuarded_of_error (handler : Option ExcInst → Except ExcCheckError Bool)
    (raised : Option ExcInst) (e : ExcCheckError) (h : handler raised = .error e) :
    runGuarded handler raised = .libraryFailure e := by
  simp [runGuarded, h]

theorem IsRaisedExit_unrelated (template exc : ExcInst)
    (hsub : issubclass exc.ty template.ty = false) :
    IsRaisedExit template (some exc) = .error (.raisedButCaught exc) := by
  simp only [IsRaisedExit, hsub]
  rfl

theorem IsRaisedClassExit_unrelated (reSearch : String → String → Bool)
    (expectedTy : PyType) (matching containing : Option String) (exc : ExcInst)
    (hsub : issubclass exc.ty expectedTy = false) :
    IsRaisedClassExit reSearch expectedTy matching containing (some exc)
      = .error (.raisedButCaught exc) := by
  simp only [IsRaisedClassExit, hsub]
  rfl

end ExceptionLemmas

/-- C2 counterexample: the claim fails on the code as stated. With actual
value 1, 1, 2 and expected collection 2, 1, 1, every expected element is
present with duplicates counted independently, yet ContainsAllIn fails
reporting element 1 missing: searching for 2 skips both copies of 1 into
the out-of-order pool, which is a set, so the two copies collapse into one
reclaimable entry. -/
theorem claim_C2_counterexample :
    (∀ x ∈ ([2, 1, 1] : List Nat), List.count x [2, 1, 1] ≤ List.count x [1, 1, 2]) ∧
    ContainsAllIn (fun _ => true) [1, 1, 2] [2, 1, 1]
      = .error (.missingAll "contains all elements in" [2, 1, 1] ⟨[(1, 1)], []⟩) :=
  ⟨by decide, by rfl⟩

/-- C2 as amended: ContainsAll (the helper behind ContainsAllIn and
ContainsAllOf, for either verb) succeeds only if every expected element is
present in the actual collection with duplicates counted independently;
the converse does not hold, because elements skipped during the search are
pooled with duplicates collapsed, so an expected element absent from the
remaining working copy is reclaimed from the pool at most once per
distinct skipped value. Every failure carries the full missing counter
accumulated over all expected elements, never only the first absence. -/
theorem claim_C2_contains_all_sound {α : Type} [DecidableEq α]
    (hashable : α → Bool) (A E : List α) :
    (∀ verb o, ContainsAll hashable verb A E = .ok o →
      ∀ x, List.count x E ≤ List.count x A) ∧
    (∀ verb err, ContainsAll hashable verb A E = .error err →
      err = .missingAll verb E
        (containsAllLoop hashable E A [] DuplicateCounter.empty true).1) :=
  ⟨fun verb o h => containsAll_ok_counts hashable verb A E o h,
   fun verb err h => containsAll_error_shape hashable verb A E err h⟩

/-- Witness for C2 as amended, at a concrete success: since asserting that
3, 5, 7 contains all of 3, 5 succeeds, the count of the element 5 in the
expected collection is bounded by its count in the actual one. -/
theorem claim_C2_witness :
    List.count 5 [3, 5] ≤ List.count 5 ([3, 5, 7] : List Nat) :=
  (claim_C2_contains_all_sound (fun _ => true) [3, 5, 7] [3, 5]).1
    "contains all elements in" .inOrder (by rfl) 5

/-- C3: from an empty unresolved registry, creating a subject and invoking no
proposition makes the checkpoint raise an UnresolvedAssertionError whose
offender listing is exactly that subject record, carrying its creation
site; invoking a proposition first reads the actual value through the
resolving accessor, which removes the subject from the registry, so the
subsequent checkpoint passes whether the proposition held or not. -/
theorem claim_C3_lifecycle {V : Type} [DecidableEq V] (r : SubjectRecord)
    (value other : V) :
    CheckUnresolved (registerSubject [] r) = .unresolvedAssertionError [r] ∧
    CheckUnresolved (IsEqualTo (registerSubject [] r) r value other).1 = .passed := by
  constructor
  · simp [registerSubject, CheckUnresolved]
  · simp [registerSubject, IsEqualTo, subjectActual, Resolve, CheckUnresolved]

/-- C4: for both exception contexts the exit handler never lets the original
exception propagate. With no raised exception both fail stating nothing
was raised; with a raised exception of an unrelated class both fail
naming what was caught; with a raised exception of the expected class or a
subclass both either complete or raise a library failure from the message
and args validation. -/
theorem claim_C4_exception_context_totality (template : ExcInst)
    (reSearch : String → String → Bool) (expectedTy : PyType)
    (matching containing : Option String) (raised : Option ExcInst) :
    (∀ exc, runGuarded (IsRaisedExit template) raised ≠ .propagatedOriginal exc) ∧
    (∀ exc, runGuarded (IsRaisedClassExit reSearch expectedTy matching containing)
        raised ≠ .propagatedOriginal exc) ∧
    (raised = none →
      runGuarded (IsRaisedExit template) raised
        = .libraryFailure .raisedButWasNot ∧
      runGuarded (IsRaisedClassExit reSearch expectedTy matching containing) raised
        = .libraryFailure .raisedButWasNot) ∧
    (∀ exc, raised = some exc → issubclass exc.ty template.ty = false →
      runGuarded (IsRaisedExit template) raised
        = .libraryFailure (.raisedButCaught exc)) ∧
    (∀ exc, raised = some exc → issubclass exc.ty expectedTy = false →
      runGuarded (IsRaisedClassExit reSearch expectedTy matching containing) raised
        = .libraryFailure (.raisedButCaught exc)) ∧
    (runGuarded (IsRaisedExit template) raised = .completed ∨
      ∃ e, runGuarded (IsRaisedExit template) raised = .libraryFailure e) ∧
    (runGuarded (IsRaisedClassExit reSearch expectedTy matching containing) raised
        = .completed ∨
      ∃ e, runGuarded (IsRaisedClassExit reSearch expectedTy matching containing)
        raised = .libraryFailure e) := by
  refine ⟨?_, ?_, ?_, ?_, ?_, ?_, ?_⟩
  · intro exc
    rcases IsRaisedExit_cases template raised with h | ⟨e, h⟩
    · rw [runGuarded_of_ok_true _ _ h]
      exact WithOutcome.noConfusion
    · rw [runGuarded_of_error _ _ e h]
      exact WithOutcome.noConfusion
  · intro exc
    rcases IsRaisedClassExit_cases reSearch expectedTy matching containing raised
      with h | ⟨e, h⟩
    · rw [runGuarded_of_ok_true _ _ h]
      exact WithOutcome.noConfusion
    · rw [runGuarded_of_error _ _ e h]
      exact WithOutcome.noConfusion
  · intro hn
    subst hn
    exact ⟨runGuarded_of_error _ _ _ rfl, runGuarded_of_error _ _ _ rfl⟩
  · intro exc hr hsub
    subst hr
    exact runGuarded_of_error _ _ _ (IsRaisedExit_unrelated template exc hsub)
  · intro exc hr hsub
    subst hr
    exact runGuarded_of_error _ _ _
      (IsRaisedClassExit_unrelated reSearch expectedTy matching containing exc hsub)
  · rcases IsRaisedExit_cases template raised with h | ⟨e, h⟩
    · exact Or.inl (runGuarded_of_ok_true _ _ h)
    · exact Or.inr ⟨e, runGuarded_of_error _ _ e h⟩
  · rcases IsRaisedClassExit_cases reSearch expectedTy matching containing raised
      with h | ⟨e, h⟩
    · exact Or.inl (runGuarded_of_ok_true _ _ h)
    · exact Or.inr ⟨e, runGuarded_of_error _ _ e h⟩

/-- Witness for C4 at a concrete input: an IsRaised context expecting a
ValueError, guarding a block that raises a TypeError, converts the
TypeError into the library failure naming what was caught. -/
theorem claim_C4_witness :
    runGuarded (IsRaisedExit ⟨.valueError, ["x"], false⟩)
        (some ⟨.typeError, ["x"], false⟩)
      = .libraryFailure (.raisedButCaught ⟨.typeError, ["x"], false⟩) :=
  (claim_C4_exception_context_totality ⟨.valueError, ["x"], false⟩
    (fun _ _ => true) .valueError none none
    (some ⟨.typeError, ["x"], false⟩)).2.2.2.1
    ⟨.typeError, ["x"], false⟩ rfl (by decide)

/-- C7: the AssertThat dispatch is total, embedded as a total function that
returns a subject kind on every input, and when the value is not a class,
matches no entry of the explicit table, and satisfies none of the
structural classifiers, it falls back to the capability-less default
subject. -/
theorem claim_C7_dispatch_total_default :
    (∀ t : PyObj, ∃ s : SubjectKind, AssertThat t = s) ∧
    (∀ t : PyObj, t.cls ≠ .type → tableLookup t.cls = none →
      IsMock t = false → IsNumeric t = false → IsComparable t = false →
      IsIterable t = false → AssertThat t = .defaultSubject) := by
  refine ⟨fun t => ⟨AssertThat t, rfl⟩, fun t h1 h2 h3 h4 h5 h6 => ?_⟩
  simp [AssertThat, h1, h2, h3, h4, h5, h6]

/-- Witness for C7 at a concrete input: a plain object instance with no
capabilities dispatches to the default subject. -/
theorem claim_C7_witness :
    AssertThat ⟨.object, false, false, false, false, false⟩ = .defaultSubject :=
  claim_C7_dispatch_total_default.2 ⟨.object, false, false, false, false, false⟩
    (by decide) (by decide) (by decide) (by decide) (by decide) (by decide)

/-- C8: no two distinct keys of the explicit dispatch table, the string
entry added after the literal included, are in a subclass relationship,
and consequently at most one table entry ever matches any class of the
universe, so the scan order over the table cannot affect which subject
class a value dispatches to. -/
theorem claim_C8_dispatch_exclusivity :
    (∀ k1 ∈ TYPE_CONSTRUCTORS, ∀ k2 ∈ TYPE_CONSTRUCTORS,
      k1.1 ≠ k2.1 → issubclass k1.1 k2.1 = false) ∧
    (∀ cls : PyType,
      (TYPE_CONSTRUCTORS.filter (fun e => issubclass cls e.1)).length ≤ 1) :=
  ⟨by decide, by decide⟩

/-- Witness for C8 at a concrete pair: bool is not a subclass of the Mapping
key. -/
theorem claim_C8_witness : issubclass PyType.bool PyType.mapping = false :=
  claim_C8_dispatch_exclusivity.1 (.bool, .booleanSubject) (by decide)
    (.mapping, .dictionarySubject) (by decide) (by decide)

/-- C9: entering a bare exception subject or exception-class subject as a
context raises immediately through the inherited mixin enter, for every
guarded body, so the body never runs; the raised class is
UnresolvedExceptionError, a subclass of UnresolvedAssertionError, and is
distinct from the plain TruthAssertionError that an ordinary failed
predicate raises through the Fail helper. -/
theorem claim_C9_bare_context_usage_error {B : Type} (body : B) :
    runWithBareExceptionSubject body = .error .unresolvedExceptionError ∧
    TruthErrorClass.unresolvedAssertionError ∈
      TruthErrorClass.unresolvedExceptionError.strictSuperclasses ∧
    TruthErrorClass.unresolvedExceptionError ≠ ordinaryFailureClass :=
  ⟨rfl, by decide, by decide⟩

/-- C5: for every element, hashable or not, and every reachable counter
state, Increment followed by Decrement of that element restores the
DuplicateCounter: the whole state comes back, so in particular membership
of the element, the length, and the rendered string are all unchanged. -/
theorem claim_C5_counter_roundtrip {α : Type} [DecidableEq α]
    (hashable : α → Bool) (c : DuplicateCounter α) (x : α) (rp : α → String)
    (hwf : c.WF hashable) :
    DuplicateCounter.Decrement hashable
        (DuplicateCounter.Increment hashable c x) x = c ∧
    DuplicateCounter.contains hashable
        (DuplicateCounter.Decrement hashable
          (DuplicateCounter.Increment hashable c x) x) x
      = DuplicateCounter.contains hashable c x ∧
    (DuplicateCounter.Decrement hashable
        (DuplicateCounter.Increment hashable c x) x).size = c.size ∧
    (DuplicateCounter.Decrement hashable
        (DuplicateCounter.Increment hashable c x) x).render rp = c.render rp := by
  have h := decrement_increment hashable c x hwf
  rw [h]
  exact ⟨rfl, rfl, rfl, rfl⟩

/-- Witness for C5 at a concrete counter holding one hashable entry with two
copies and one unhashable entry, incrementing and decrementing the
unhashable element. -/
theorem claim_C5_witness :
    DuplicateCounter.Decrement (fun n => n % 2 == 0)
        (DuplicateCounter.Increment (fun n => n % 2 == 0)
          ⟨[(2, 2)], [(3, 1)]⟩ 3) 3 = (⟨[(2, 2)], [(3, 1)]⟩ : DuplicateCounter Nat) ∧
    DuplicateCounter.contains (fun n => n % 2 == 0)
        (DuplicateCounter.Decrement (fun n => n % 2 == 0)
          (DuplicateCounter.Increment (fun n => n % 2 == 0)
            ⟨[(2, 2)], [(3, 1)]⟩ 3) 3) 3
      = DuplicateCounter.contains (fun n => n % 2 == 0)
          (⟨[(2, 2)], [(3, 1)]⟩ : DuplicateCounter Nat) 3 ∧
    (DuplicateCounter.Decrement (fun n => n % 2 == 0)
        (DuplicateCounter.Increment (fun n => n % 2 == 0)
          ⟨[(2, 2)], [(3, 1)]⟩ 3) 3).size
      = (⟨[(2, 2)], [(3, 1)]⟩ : DuplicateCounter Nat).size ∧
    (DuplicateCounter.Decrement (fun n => n % 2 == 0)
        (DuplicateCounter.Increment (fun n => n % 2 == 0)
          ⟨[(2, 2)], [(3, 1)]⟩ 3) 3).render (fun n => toString n)
      = (⟨[(2, 2)], [(3, 1)]⟩ : DuplicateCounter Nat).render (fun n => toString n) :=
  claim_C5_counter_roundtrip (fun n => n % 2 == 0) ⟨[(2, 2)], [(3, 1)]⟩ 3
    (fun n => toString n) (by refine ⟨?_, ?_, ?_, ?_⟩ <;> decide)
